import Mathlib

/-!
Verification of the xbits bit-manipulation header (src/source/xbits.h).

Every routine in the header is a pure transformation of fixed-width machine
integers.  The embedding models machine words as `Nat` with explicit
wraparound `% 2 ^ 32` (or `% 2 ^ 64`) exactly where the C++ type would wrap;
bitwise operators are the corresponding `Nat` operators, which agree with the
hardware operators on in-range values.  Each definition is the instantiation
of the corresponding C++ template at the width the claims exercise (uint32
unless stated otherwise).
-/

namespace xbits

/-- Embedding of xbits.h lines 331-336, isPowTwo, at a 32-bit instantiation.
The source returns the logical negation of `(x - 1) & x` with no sign or zero
test; on the 32-bit pattern level the decrement wraps, so `x - 1` is
`(x + 2^32 - 1) % 2^32`. -/
def isPowTwo (x : Nat) : Bool :=
  (((x + (2 ^ 32 - 1)) % 2 ^ 32) &&& x) == 0

/-- Embedding of xbits.h lines 84-89, SLeft, at the uint64_t instantiation.
The source computes `static_cast<uint64_t>(1 << n)` where the literal `1` has
type int (32 bits wide): the shift happens at 32 bits, modelled here with
32-bit wraparound, and the int-to-uint64 conversion sign-extends patterns
whose top bit is set. -/
def SLeft_uint64 (n : Nat) : Nat :=
  let p := (1 <<< n) % 2 ^ 32
  if p < 2 ^ 31 then p else 2 ^ 64 - 2 ^ 32 + p

/-- Embedding of xbits.h lines 106-112, Align, at the uint32 instantiation.
The unsigned cast of `-AlignTo` is the two's-complement pattern
`(2^32 - AlignTo) % 2^32`, and the addition wraps at 32 bits. -/
def Align (Address : Nat) (AlignTo : Nat) : Nat :=
  ((Address + (AlignTo - 1)) % 2 ^ 32) &&& ((2 ^ 32 - AlignTo) % 2 ^ 32)

/-- Embedding of xbits.h lines 149-155, AlignLower, at the uint32
instantiation. -/
def AlignLower (Address : Nat) (AlignTo : Nat) : Nat :=
  Address &&& ((2 ^ 32 - AlignTo) % 2 ^ 32)

/-- Embedding of xbits.h lines 189-195, isAlign, at the uint32
instantiation. -/
def isAlign (Addr : Nat) (AlignTo : Nat) : Bool :=
  (Addr &&& (AlignTo - 1)) == 0

/-- Modelled from the spec: FlagToggle is declared at xbits.h line 216 but its
definition is not in src/.  Spec section 4.3 defines `flag_toggle(N, F)` as
`N = N xor F`, in place; the in-place update is modelled as a pure function
returning the new value of N. -/
def FlagToggle (N : Nat) (F : Nat) : Nat := N ^^^ F

namespace details

/-- Embedding of xbits.h lines 310-315, details::NextPowOfTwo, at the uint32
instantiation.  Only the final `1 + x` can leave 32 bits, so only it carries
the wraparound. -/
def NextPowOfTwo (x : Nat) (s : Nat) : Nat :=
  if _h : s = 0 then (1 + x) % 2 ^ 32
  else NextPowOfTwo (x ||| (x >>> s)) (s / 2)
termination_by s
decreasing_by simp_wf; omega

end details

/-- Embedding of xbits.h lines 413-418, RoundToNextPowOfTwo, at the uint32
instantiation, where `4 * sizeof(T)` is 16. -/
def RoundToNextPowOfTwo (x : Nat) : Nat :=
  if x = 0 then 0 else details.NextPowOfTwo (x - 1) 16

namespace details

/-- Embedding of xbits.h lines 454-467, murmurHash3_by_size<4>::Compute, with
the uint32 arithmetic of the two multiplications made explicit; the xors of
32-bit values never leave 32 bits. -/
def murmurHash3Compute4 (h : Nat) : Nat :=
  let h1 := h ^^^ (h >>> 16)
  let h2 := h1 * 0x85ebca6b % 2 ^ 32
  let h3 := h2 ^^^ (h2 >>> 13)
  let h4 := h3 * 0xc2b2ae35 % 2 ^ 32
  h4 ^^^ (h4 >>> 16)

end details

/-- Embedding of xbits.h lines 505-511, MurmurHash3, at the uint32
instantiation: the cast to to_uint_t is the 32-bit pattern of the input and
the result cast back is the identity on 32-bit patterns. -/
def MurmurHash3 (h : Nat) : Nat :=
  details.murmurHash3Compute4 (h % 2 ^ 32)

/-- Modelled from the spec: the five-step 32-bit finalizer sequence quoted in
spec section 4.5, written from the spec words for the refinement side of
claim C6, every step taken in unsigned 32-bit modular arithmetic. -/
def murmur32SpecSteps (h : Nat) : Nat :=
  let a := (h ^^^ (h >>> 16)) % 2 ^ 32
  let b := a * 0x85ebca6b % 2 ^ 32
  let c := (b ^^^ (b >>> 13)) % 2 ^ 32
  let d := c * 0xc2b2ae35 % 2 ^ 32
  (d ^^^ (d >>> 16)) % 2 ^ 32

/-- Embedding of xbits.h lines 585-594, popcnt32 (portable population count).
Subtraction cannot underflow, because `(x >> 1) & m <= x`, and no intermediate
sum can reach 32 bits, so no wraparound arises. -/
def popcnt32 (x : Nat) : Nat :=
  let x1 := x - ((x >>> 1) &&& 0x55555555)
  let x2 := ((x1 >>> 2) &&& 0x33333333) + (x1 &&& 0x33333333)
  let x3 := ((x2 >>> 4) + x2) &&& 0x0f0f0f0f
  let x4 := x3 + (x3 >>> 8)
  let x5 := x4 + (x4 >>> 16)
  x5 &&& 0x0000003f

/-- Embedding of xbits.h lines 609-618, clz32 (portable count of leading
zeros). -/
def clz32 (x : Nat) : Nat :=
  let x1 := x ||| (x >>> 1)
  let x2 := x1 ||| (x1 >>> 2)
  let x3 := x2 ||| (x2 >>> 4)
  let x4 := x3 ||| (x3 >>> 8)
  let x5 := x4 ||| (x4 >>> 16)
  32 - popcnt32 x5

/-- Embedding of xbits.h lines 635-639, ctz32 (portable count of trailing
zeros).  The uint32 negation `-x` is `(2^32 - x) % 2^32`, and the decrement of
`x & -x` wraps at 32 bits, which is what sends x = 0 to
`popcnt32 (2^32 - 1) = 32`. -/
def ctz32 (x : Nat) : Nat :=
  popcnt32 (((x &&& ((2 ^ 32 - x) % 2 ^ 32)) + (2 ^ 32 - 1)) % 2 ^ 32)

/-- Reference function for claims about trailing zeros: the number of zero
bits below the lowest set bit of x, by repeated halving. -/
def tz (x : Nat) : Nat :=
  if _h : x = 0 then 0
  else if x % 2 = 1 then 0
  else tz (x / 2) + 1
termination_by x
decreasing_by simp_wf; omega

/-- Proof helper: the five OR-shift steps that `details.NextPowOfTwo` performs
when started at s = 16, written out flat. -/
def smear (y : Nat) : Nat :=
  let y1 := y ||| (y >>> 16)
  let y2 := y1 ||| (y1 >>> 8)
  let y3 := y2 ||| (y2 >>> 4)
  let y4 := y3 ||| (y3 >>> 2)
  y4 ||| (y4 >>> 1)

/-- Claim C1: the claim says isPowTwo(x) is true iff x > 0 and
(x - 1) & x == 0, and in particular isPowTwo(0) is false.  The code has no
x > 0 test, and at the failing input x = 0 it evaluates !((0 - 1) & 0), which
is true, contradicting both the claim and the function's own comment
(xbits.h lines 323-325, which promise that 0 is false). -/
theorem isPowTwo_zero_code_bug : isPowTwo 0 = true := by decide

/-- Claim C3: the claim says SLeft<uint64_t>(40) == 2^40.  The code shifts the
int literal 1, so the shift happens at 32 bits: at the failing input n = 40
the 32-bit pattern of 1 << 40 is 0 (undefined behaviour in C++; 0 under the
wraparound model), not 2^40, contradicting the function's own comment
(xbits.h line 78, which promises validity for n below the bit size of T). -/
theorem SLeft_int_literal_code_bug : SLeft_uint64 40 = 0 ∧ (0 : Nat) ≠ 2 ^ 40 := by
  constructor
  · decide
  · decide

/-- Claim C8: toggling the same 32-bit mask twice restores N, because
FlagToggle xors the mask into N and xor is an involution. -/
theorem FlagToggle_twice_id : ∀ (N F : Nat), FlagToggle (FlagToggle N F) F = N := by
  intro N F
  simp [FlagToggle, Nat.xor_assoc]

/-- AND-ing a 32-bit value with the high mask `2^32 - 2^j` keeps exactly the
bits at positions j..31, which rounds the value down to a multiple of 2^j. -/
theorem land_high_mask {y : Nat} (hy : y < 2 ^ 32) {j : Nat} (hj : j ≤ 32) :
    y &&& (2 ^ 32 - 2 ^ j) = 2 ^ j * (y / 2 ^ j) := by
  have hpow : 2 ^ (32 - j) * 2 ^ j = 2 ^ 32 := by
    rw [← Nat.pow_add]
    congr 1
    omega
  have hsplit : 2 ^ 32 - 2 ^ j = (2 ^ (32 - j) - 1) <<< j := by
    rw [Nat.shiftLeft_eq, Nat.sub_mul, Nat.one_mul, hpow]
  have hrhs : 2 ^ j * (y / 2 ^ j) = (y >>> j) <<< j := by
    rw [Nat.shiftLeft_eq, Nat.shiftRight_eq_div_pow, Nat.mul_comm]
  rw [hsplit, hrhs]
  apply Nat.eq_of_testBit_eq
  intro i
  rw [Nat.testBit_and, Nat.testBit_shiftLeft, Nat.testBit_shiftLeft,
    Nat.testBit_shiftRight, Nat.testBit_two_pow_sub_one]
  by_cases hij : j ≤ i
  · by_cases hi32 : i < 32
    · have h1 : i - j < 32 - j := by omega
      have h2 : j + (i - j) = i := by omega
      simp [hij, h1, h2]
    · have h1 : ¬ (i - j < 32 - j) := by omega
      have h2 : Nat.testBit y i = false :=
        Nat.testBit_lt_two_pow
          (lt_of_lt_of_le hy (Nat.pow_le_pow_right (by norm_num) (by omega)))
      simp [hij, h1, h2]
  · simp [hij]

/-- AlignLower at a power-of-two alignment is rounding down to a multiple. -/
theorem AlignLower_eq {x : Nat} (hx : x < 2 ^ 32) {j : Nat} (hj : j ≤ 32) :
    AlignLower x (2 ^ j) = 2 ^ j * (x / 2 ^ j) := by
  have hle : (2 : Nat) ^ j ≤ 2 ^ 32 := Nat.pow_le_pow_right (by norm_num) hj
  have hpos : 0 < (2 : Nat) ^ j := Nat.two_pow_pos j
  unfold AlignLower
  rw [Nat.mod_eq_of_lt (by omega : 2 ^ 32 - 2 ^ j < 2 ^ 32)]
  exact land_high_mask hx hj

/-- Align at a power-of-two alignment, in general form: the wrapped sum is
rounded down to a multiple of the alignment. -/
theorem Align_eq_mod (x : Nat) {j : Nat} (hj : j ≤ 32) :
    Align x (2 ^ j) = 2 ^ j * (((x + (2 ^ j - 1)) % 2 ^ 32) / 2 ^ j) := by
  have hle : (2 : Nat) ^ j ≤ 2 ^ 32 := Nat.pow_le_pow_right (by norm_num) hj
  have hpos : 0 < (2 : Nat) ^ j := Nat.two_pow_pos j
  unfold Align
  rw [Nat.mod_eq_of_lt (by omega : 2 ^ 32 - 2 ^ j < 2 ^ 32)]
  exact land_high_mask (Nat.mod_lt _ (by norm_num)) hj

/-- Align at a power-of-two alignment when the sum does not wrap. -/
theorem Align_eq {x j : Nat} (hov : x + 2 ^ j ≤ 2 ^ 32) (hj : j ≤ 32) :
    Align x (2 ^ j) = 2 ^ j * ((x + (2 ^ j - 1)) / 2 ^ j) := by
  have hpos : 0 < (2 : Nat) ^ j := Nat.two_pow_pos j
  rw [Align_eq_mod x hj, Nat.mod_eq_of_lt (by omega : x + (2 ^ j - 1) < 2 ^ 32)]

/-- A multiple of the alignment sits at least one alignment below the top of
the 32-bit range. -/
theorem dvd_le_top {x j : Nat} (hx : x < 2 ^ 32) (hj : j ≤ 32) (hd : 2 ^ j ∣ x) :
    x + 2 ^ j ≤ 2 ^ 32 := by
  have h1 : (2 : Nat) ^ j ∣ 2 ^ 32 - x := Nat.dvd_sub' (pow_dvd_pow 2 hj) hd
  have h2 : (2 : Nat) ^ j ≤ 2 ^ 32 - x := Nat.le_of_dvd (by omega) h1
  omega

/-- Align fixes the multiples of the alignment. -/
theorem Align_of_dvd {x j : Nat} (hx : x < 2 ^ 32) (hj : j ≤ 32) (hd : 2 ^ j ∣ x) :
    Align x (2 ^ j) = x := by
  have hpos : 0 < (2 : Nat) ^ j := Nat.two_pow_pos j
  obtain ⟨k, hk⟩ := hd
  rw [Align_eq (dvd_le_top hx hj ⟨k, hk⟩) hj, hk, Nat.mul_add_div hpos,
    Nat.div_eq_of_lt (by omega), Nat.add_zero]

/-- isAlign at a power-of-two alignment tests divisibility. -/
theorem isAlign_iff_dvd {x j : Nat} :
    isAlign x (2 ^ j) = true ↔ 2 ^ j ∣ x := by
  have hpos : 0 < (2 : Nat) ^ j := Nat.two_pow_pos j
  unfold isAlign
  rw [Nat.and_pow_two_sub_one_eq_mod, Nat.dvd_iff_mod_eq_zero]
  simp

/-- Claim C2 counterexample: the claim quantifies over every x, but Align
wraps at the top of the 32-bit range: at x = 2^32 - 1 and a = 2 the sum
x + a - 1 wraps to 0, so Align(x, 2) = 0 and x is not below it. -/
theorem align_overflow_counterexample :
    ¬ ((2 : Nat) ^ 32 - 1 ≤ Align (2 ^ 32 - 1) 2) := by decide

/-- Claim C2 (amended): for every power-of-two alignment a = 2^j with
j ≤ 30 and every 32-bit x, AlignLower(x, a) ≤ x, both AlignLower(x, a) and
Align(x, a) are multiples of a, Align(AlignLower(x, a), a) = AlignLower(x, a)
whenever a divides x, and x ≤ Align(x, a) whenever x + a ≤ 2^32, so that the
sum inside Align does not wrap. -/
theorem Align_AlignLower_bounds : ∀ j, j ≤ 30 → ∀ x, x < 2 ^ 32 →
    AlignLower x (2 ^ j) ≤ x ∧
    2 ^ j ∣ AlignLower x (2 ^ j) ∧
    2 ^ j ∣ Align x (2 ^ j) ∧
    (2 ^ j ∣ x → Align (AlignLower x (2 ^ j)) (2 ^ j) = AlignLower x (2 ^ j)) ∧
    (x + 2 ^ j ≤ 2 ^ 32 → x ≤ Align x (2 ^ j)) := by
  intro j hj x hx
  have hj32 : j ≤ 32 := by omega
  have hpos : 0 < (2 : Nat) ^ j := Nat.two_pow_pos j
  have hlow := AlignLower_eq hx hj32
  refine ⟨?_, ?_, ?_, ?_, ?_⟩
  · rw [hlow, Nat.mul_comm]
    exact Nat.div_mul_le_self x (2 ^ j)
  · rw [hlow]
    exact dvd_mul_right _ _
  · rw [Align_eq_mod x hj32]
    exact dvd_mul_right _ _
  · intro hd
    have hfix : AlignLower x (2 ^ j) = x := by
      rw [hlow, Nat.mul_div_cancel' hd]
    rw [hfix]
    exact Align_of_dvd hx hj32 hd
  · intro hov
    rw [Align_eq hov hj32]
    have hdm := Nat.div_add_mod (x + (2 ^ j - 1)) (2 ^ j)
    have hm := Nat.mod_lt (x + (2 ^ j - 1)) hpos
    omega

/-- Claim C2 witness: the amended bounds at j = 4, x = 57, matching the
spec's concrete scenario align_down(57, 16) = 48. -/
theorem Align_AlignLower_bounds_witness :
    (4 : Nat) ≤ 30 ∧ (57 : Nat) < 2 ^ 32 ∧ AlignLower 57 (2 ^ 4) ≤ 57 :=
  ⟨by decide, by decide, (Align_AlignLower_bounds 4 (by decide) 57 (by decide)).1⟩

/-- Claim C9: for every power-of-two alignment 2^j with j ≤ 30 and every
32-bit x, the three tests agree: isAlign(x, a) holds iff Align(x, a) = x,
iff AlignLower(x, a) = x. -/
theorem align_tests_agree : ∀ j, j ≤ 30 → ∀ x, x < 2 ^ 32 →
    ((isAlign x (2 ^ j) = true) ↔ Align x (2 ^ j) = x) ∧
    ((isAlign x (2 ^ j) = true) ↔ AlignLower x (2 ^ j) = x) := by
  intro j hj x hx
  have hj32 : j ≤ 32 := by omega
  have hlow := AlignLower_eq hx hj32
  constructor
  · rw [isAlign_iff_dvd]
    constructor
    · intro hd
      exact Align_of_dvd hx hj32 hd
    · intro h
      rw [← h, Align_eq_mod x hj32]
      exact dvd_mul_right _ _
  · rw [isAlign_iff_dvd]
    constructor
    · intro hd
      rw [hlow, Nat.mul_div_cancel' hd]
    · intro h
      rw [← h, hlow]
      exact dvd_mul_right _ _

/-- Claim C9 witness: the agreement at j = 4, x = 64, matching the spec's
concrete scenario is_aligned(64, 16) = true. -/
theorem align_tests_agree_witness :
    (4 : Nat) ≤ 30 ∧ (64 : Nat) < 2 ^ 32 ∧
      ((isAlign 64 (2 ^ 4) = true) ↔ Align 64 (2 ^ 4) = 64) :=
  ⟨by decide, by decide, (align_tests_agree 4 (by decide) 64 (by decide)).1⟩

/-- A right shift never increases a natural number. -/
theorem shiftRight_le_self (a s : Nat) : a >>> s ≤ a := by
  rw [Nat.shiftRight_eq_div_pow]
  exact Nat.div_le_self a (2 ^ s)

/-- One OR-shift step keeps a value below any power of two that bounds it. -/
theorem orShift_lt {a n : Nat} (s : Nat) (ha : a < 2 ^ n) :
    a ||| (a >>> s) < 2 ^ n :=
  Nat.or_lt_two_pow ha (lt_of_le_of_lt (shiftRight_le_self a s) ha)

/-- One OR-shift step of the smear: if the bits of y at distances that are
multiples of 2s below n are set, then after OR-ing in y shifted right by s,
the bits at all distances that are multiples of s below n are set. -/
theorem smear_step {y n s : Nat}
    (h : ∀ j, j ≤ n → 2 * s ∣ (n - j) → Nat.testBit y j = true) :
    ∀ j, j ≤ n → s ∣ (n - j) → Nat.testBit (y ||| (y >>> s)) j = true := by
  intro j hj hdvd
  obtain ⟨q, hq⟩ := hdvd
  rw [Nat.testBit_or, Nat.testBit_shiftRight]
  rcases Nat.even_or_odd q with he | ho
  · obtain ⟨r, hr⟩ := he
    have hq2 : n - j = 2 * (s * r) := by rw [hq, hr]; ring
    have hd2 : 2 * s ∣ (n - j) := ⟨r, by rw [hq2]; ring⟩
    rw [h j hj hd2]
    simp
  · obtain ⟨r, hr⟩ := ho
    have hq2 : n - j = 2 * (s * r) + s := by rw [hq, hr]; ring
    have hjs : s + j ≤ n := by omega
    have hd2 : 2 * s ∣ (n - (s + j)) := ⟨r, by
      have : n - (s + j) = 2 * (s * r) := by omega
      rw [this]; ring⟩
    rw [h (s + j) (by omega) hd2]
    simp

/-- Start of the smear invariant: initially only distance zero is known, and
below 32 only the zero distance is a multiple of 32. -/
theorem smear_start {y n : Nat} (hbit : Nat.testBit y n = true) (hn : n ≤ 31) :
    ∀ j, j ≤ n → 32 ∣ (n - j) → Nat.testBit y j = true := by
  intro j hj hdvd
  obtain ⟨c, hc⟩ := hdvd
  have hjn : j = n := by omega
  rw [hjn]
  exact hbit

/-- After the five OR-shift steps of the smear every bit at or below the
highest set bit position n is set. -/
theorem smear_bits_le {y n : Nat} (hbit : Nat.testBit y n = true) (hn : n ≤ 31) :
    ∀ j, j ≤ n → Nat.testBit (smear y) j = true := by
  intro j hj
  have h16 := smear_step (s := 16) (smear_start hbit hn)
  have h8 := smear_step (s := 8) h16
  have h4 := smear_step (s := 4) h8
  have h2 := smear_step (s := 2) h4
  have h1 := smear_step (s := 1) h2
  simpa [smear] using h1 j hj (one_dvd _)

/-- The smear keeps a value below any power of two that bounds it. -/
theorem smear_lt {y n : Nat} (hy : y < 2 ^ n) : smear y < 2 ^ n := by
  simp only [smear]
  exact orShift_lt 1 (orShift_lt 2 (orShift_lt 4 (orShift_lt 8 (orShift_lt 16 hy))))

/-- The highest set bit of a positive number sits at position log2. -/
theorem testBit_log_self {y : Nat} (hy0 : 0 < y) :
    Nat.testBit y (Nat.log 2 y) = true := by
  have h1 : 2 ^ Nat.log 2 y ≤ y := Nat.pow_log_le_self 2 (by omega)
  have h2 : y < 2 ^ (Nat.log 2 y + 1) := Nat.lt_pow_succ_log_self (by norm_num) y
  have hdiv : y / 2 ^ Nat.log 2 y = 1 := by
    apply Nat.div_eq_of_lt_le
    · simpa using h1
    · have hp : (1 + 1) * 2 ^ Nat.log 2 y = 2 ^ (Nat.log 2 y + 1) := by ring
      omega
  rw [Nat.testBit_to_div_mod, hdiv]
  simp

/-- Exact value of the smear of a positive 32-bit value: all bits up to and
including the highest set bit become set. -/
theorem smear_eq {y : Nat} (hy0 : 0 < y) (hy : y < 2 ^ 32) :
    smear y = 2 ^ (Nat.log 2 y + 1) - 1 := by
  have hn31 : Nat.log 2 y ≤ 31 := by
    have h2 : Nat.log 2 y < 32 :=
      (Nat.lt_pow_iff_log_lt (by norm_num) (by omega)).mp hy
    omega
  have hlt : smear y < 2 ^ (Nat.log 2 y + 1) :=
    smear_lt (Nat.lt_pow_succ_log_self (by norm_num) y)
  have hbits := smear_bits_le (testBit_log_self hy0) hn31
  apply Nat.eq_of_testBit_eq
  intro i
  rw [Nat.testBit_two_pow_sub_one]
  by_cases hi : i < Nat.log 2 y + 1
  · rw [hbits i (by omega)]
    simp [hi]
  · have hfalse : Nat.testBit (smear y) i = false :=
      Nat.testBit_lt_two_pow
        (lt_of_lt_of_le hlt (Nat.pow_le_pow_right (by norm_num) (by omega)))
    rw [hfalse]
    simp [hi]

/-- Unfolding of details.NextPowOfTwo started at shift 16: it performs the
five OR-shift steps of the smear and then adds 1 with 32-bit wraparound. -/
theorem NextPowOfTwo_eq_smear (y : Nat) :
    details.NextPowOfTwo y 16 = (1 + smear y) % 2 ^ 32 := by
  rw [details.NextPowOfTwo, details.NextPowOfTwo, details.NextPowOfTwo,
    details.NextPowOfTwo, details.NextPowOfTwo, details.NextPowOfTwo]
  norm_num [smear]

/-- RoundToNextPowOfTwo sends 0 to 0. -/
theorem Round_zero : RoundToNextPowOfTwo 0 = 0 := by
  simp [RoundToNextPowOfTwo]

/-- RoundToNextPowOfTwo sends 1 to 1: the smear of 0 is 0. -/
theorem Round_one : RoundToNextPowOfTwo 1 = 1 := by
  have h : RoundToNextPowOfTwo 1 = details.NextPowOfTwo 0 16 := by
    simp [RoundToNextPowOfTwo]
  rw [h, NextPowOfTwo_eq_smear]
  decide

/-- Closed form of RoundToNextPowOfTwo for inputs of at least 2: two to the
power one more than the floor log2 of x - 1, wrapped at 32 bits. -/
theorem RoundToNextPowOfTwo_eq {x : Nat} (hx1 : 2 ≤ x) (hx : x < 2 ^ 32) :
    RoundToNextPowOfTwo x = 2 ^ (Nat.log 2 (x - 1) + 1) % 2 ^ 32 := by
  have h : RoundToNextPowOfTwo x = details.NextPowOfTwo (x - 1) 16 := by
    simp [RoundToNextPowOfTwo]
    omega
  rw [h, NextPowOfTwo_eq_smear, smear_eq (by omega) (by omega)]
  congr 1
  have hpos : 0 < 2 ^ (Nat.log 2 (x - 1) + 1) := Nat.two_pow_pos _
  omega

/-- RoundToNextPowOfTwo fixes every representable power of two. -/
theorem Round_pow {k : Nat} (hk : k ≤ 31) : RoundToNextPowOfTwo (2 ^ k) = 2 ^ k := by
  rcases Nat.eq_zero_or_pos k with h0 | hpos
  · rw [h0]
    exact Round_one
  · have h2 : 2 ≤ 2 ^ k := by
      calc (2 : Nat) = 2 ^ 1 := rfl
        _ ≤ 2 ^ k := Nat.pow_le_pow_right (by norm_num) hpos
    have hlt : (2 : Nat) ^ k < 2 ^ 32 := Nat.pow_lt_pow_right (by norm_num) (by omega)
    have hstep : 2 ^ (k - 1) * 2 = 2 ^ k := by
      rw [← Nat.pow_succ]
      congr 1
      omega
    have hklt : (2 : Nat) ^ (k - 1) < 2 ^ k := by
      have := Nat.two_pow_pos (k - 1)
      omega
    have hlog : Nat.log 2 (2 ^ k - 1) = k - 1 := by
      apply Nat.log_eq_of_pow_le_of_lt_pow
      · omega
      · have hsucc : k - 1 + 1 = k := by omega
        rw [hsucc]
        omega
    rw [RoundToNextPowOfTwo_eq h2 hlt, hlog]
    have hsucc : k - 1 + 1 = k := by omega
    rw [hsucc, Nat.mod_eq_of_lt hlt]

/-- Above 2^31 the rounded value is no longer representable and the final
increment of the all-ones smear wraps to 0. -/
theorem Round_high {x : Nat} (h1 : 2 ^ 31 < x) (h2 : x < 2 ^ 32) :
    RoundToNextPowOfTwo x = 0 := by
  have hlog : Nat.log 2 (x - 1) = 31 := by
    apply Nat.log_eq_of_pow_le_of_lt_pow
    · norm_num at h1 ⊢
      omega
    · norm_num at h2 ⊢
      omega
  rw [RoundToNextPowOfTwo_eq (by norm_num at h1 ⊢; omega) h2, hlog]
  norm_num

/-- For positive inputs up to 2^31 the result is a power of two with exponent
at most 31. -/
theorem Round_is_pow {x : Nat} (hx0 : 0 < x) (hx : x ≤ 2 ^ 31) :
    ∃ k, k ≤ 31 ∧ RoundToNextPowOfTwo x = 2 ^ k := by
  rcases Nat.lt_or_ge x 2 with h1 | h2
  · have hx1 : x = 1 := by omega
    exact ⟨0, by norm_num, by rw [hx1]; exact Round_one⟩
  · have hxlt : x < 2 ^ 32 := by norm_num at hx ⊢; omega
    have hlog : Nat.log 2 (x - 1) < 31 := by
      apply (Nat.lt_pow_iff_log_lt (by norm_num) (by omega)).mp
      norm_num at hx ⊢
      omega
    refine ⟨Nat.log 2 (x - 1) + 1, by omega, ?_⟩
    rw [RoundToNextPowOfTwo_eq h2 hxlt,
      Nat.mod_eq_of_lt (Nat.pow_lt_pow_right (by norm_num) (by omega))]

/-- Claim C4: RoundToNextPowOfTwo sends 0 to 0 and 5 to 8, and for every
positive x whose rounded value is representable (x up to 2^31) it returns the
smallest power of two that is at least x; in particular every exact power of
two is a fixed point. -/
theorem RoundToNextPowOfTwo_least :
    RoundToNextPowOfTwo 0 = 0 ∧ RoundToNextPowOfTwo 5 = 8 ∧
    ∀ x, 0 < x → x ≤ 2 ^ 31 →
      (∃ k, RoundToNextPowOfTwo x = 2 ^ k) ∧
      x ≤ RoundToNextPowOfTwo x ∧
      (∀ p k, p = 2 ^ k → x ≤ p → RoundToNextPowOfTwo x ≤ p) ∧
      ((∃ k, x = 2 ^ k) → RoundToNextPowOfTwo x = x) := by
  refine ⟨Round_zero, ?_, ?_⟩
  · have h : RoundToNextPowOfTwo 5 = details.NextPowOfTwo 4 16 := by
      simp [RoundToNextPowOfTwo]
    rw [h, NextPowOfTwo_eq_smear]
    decide
  · intro x hx0 hx31
    have hup : x ≤ RoundToNextPowOfTwo x := by
      rcases Nat.lt_or_ge x 2 with h1 | h2
      · have hx1 : x = 1 := by omega
        rw [hx1, Round_one]
      · have hxlt : x < 2 ^ 32 := by norm_num at hx31 ⊢; omega
        have hlog : Nat.log 2 (x - 1) < 31 := by
          apply (Nat.lt_pow_iff_log_lt (by norm_num) (by omega)).mp
          norm_num at hx31 ⊢
          omega
        rw [RoundToNextPowOfTwo_eq h2 hxlt,
          Nat.mod_eq_of_lt (Nat.pow_lt_pow_right (by norm_num) (by omega))]
        have := Nat.lt_pow_succ_log_self (b := 2) (by norm_num) (x - 1)
        omega
    have hmin : ∀ p k, p = 2 ^ k → x ≤ p → RoundToNextPowOfTwo x ≤ p := by
      intro p k hpk hxp
      subst hpk
      rcases Nat.lt_or_ge x 2 with h1 | h2
      · have hx1 : x = 1 := by omega
        rw [hx1, Round_one]
        have := Nat.two_pow_pos k
        omega
      · have hxlt : x < 2 ^ 32 := by norm_num at hx31 ⊢; omega
        have hlog : Nat.log 2 (x - 1) < 31 := by
          apply (Nat.lt_pow_iff_log_lt (by norm_num) (by omega)).mp
          norm_num at hx31 ⊢
          omega
        rw [RoundToNextPowOfTwo_eq h2 hxlt,
          Nat.mod_eq_of_lt (Nat.pow_lt_pow_right (by norm_num) (by omega))]
        by_cases hkn : Nat.log 2 (x - 1) + 1 ≤ k
        · exact Nat.pow_le_pow_right (by norm_num) hkn
        · exfalso
          have hkle : k ≤ Nat.log 2 (x - 1) := by omega
          have hlow : 2 ^ Nat.log 2 (x - 1) ≤ x - 1 :=
            Nat.pow_log_le_self 2 (by omega)
          have hkpow : (2 : Nat) ^ k ≤ 2 ^ Nat.log 2 (x - 1) :=
            Nat.pow_le_pow_right (by norm_num) hkle
          omega
    refine ⟨?_, hup, hmin, ?_⟩
    · obtain ⟨k, _, hk⟩ := Round_is_pow hx0 hx31
      exact ⟨k, hk⟩
    · intro ⟨k, hk⟩
      exact le_antisymm (hmin x k hk (le_refl x)) hup

/-- Claim C4 witness: the bounds at x = 5, where the rounded value is 8. -/
theorem RoundToNextPowOfTwo_least_witness :
    0 < 5 ∧ 5 ≤ 2 ^ 31 ∧ (5 : Nat) ≤ RoundToNextPowOfTwo 5 :=
  ⟨by decide, by decide,
    (RoundToNextPowOfTwo_least.2.2 5 (by decide) (by decide)).2.1⟩

/-- Claim C5: RoundToNextPowOfTwo is idempotent on every positive 32-bit
input, with no representability restriction, and sends 0 to 0.  Up to 2^31
the result is a representable power of two, which is a fixed point; above
2^31 the result wraps to 0, which RoundToNextPowOfTwo also fixes. -/
theorem RoundToNextPowOfTwo_idem :
    RoundToNextPowOfTwo 0 = 0 ∧
    ∀ x, 0 < x → x < 2 ^ 32 →
      RoundToNextPowOfTwo (RoundToNextPowOfTwo x) = RoundToNextPowOfTwo x := by
  refine ⟨Round_zero, ?_⟩
  intro x hx0 hxlt
  rcases le_or_lt x (2 ^ 31) with hle | hgt
  · obtain ⟨k, hk31, hk⟩ := Round_is_pow hx0 hle
    rw [hk]
    exact Round_pow hk31
  · rw [Round_high hgt hxlt]
    exact Round_zero

/-- Claim C5 witness: idempotence at x = 5. -/
theorem RoundToNextPowOfTwo_idem_witness :
    0 < 5 ∧ 5 < 2 ^ 32 ∧
      RoundToNextPowOfTwo (RoundToNextPowOfTwo 5) = RoundToNextPowOfTwo 5 :=
  ⟨by decide, by decide, RoundToNextPowOfTwo_idem.2 5 (by decide) (by decide)⟩

/-- A xor-shift of a 32-bit value stays inside 32 bits, so its wraparound is
the identity. -/
theorem xorshift_mod {a : Nat} (s : Nat) (ha : a < 2 ^ 32) :
    (a ^^^ (a >>> s)) % 2 ^ 32 = a ^^^ (a >>> s) :=
  Nat.mod_eq_of_lt
    (Nat.xor_lt_two_pow ha (lt_of_le_of_lt (shiftRight_le_self a s) ha))

/-- Shifting a 32-bit value right by 32 or more positions clears it. -/
theorem shiftRight_ge_width {a : Nat} (s : Nat) (ha : a < 2 ^ 32)
    (hs : 32 ≤ s) : a >>> s = 0 := by
  rw [Nat.shiftRight_eq_div_pow]
  exact Nat.div_eq_of_lt
    (lt_of_lt_of_le ha (Nat.pow_le_pow_right (by norm_num) hs))

/-- Right shifts distribute over xor. -/
theorem xor_shiftRight_distrib (a b s : Nat) :
    (a ^^^ b) >>> s = (a >>> s) ^^^ (b >>> s) := by
  apply Nat.eq_of_testBit_eq
  intro i
  simp [Nat.testBit_shiftRight, Nat.testBit_xor]

/-- Xor-shift by 16 is an involution on 32-bit values: the shifted copy of
the top half is unchanged by the first application, because the xor only
touches the bottom half. -/
theorem xorshift16_invol {h : Nat} (hlt : h < 2 ^ 32) :
    (h ^^^ (h >>> 16)) ^^^ ((h ^^^ (h >>> 16)) >>> 16) = h := by
  have h32 : (h >>> 16) >>> 16 = 0 := by
    rw [← Nat.shiftRight_add]
    exact shiftRight_ge_width 32 hlt (by norm_num)
  rw [xor_shiftRight_distrib, h32]
  simp [Nat.xor_assoc]

/-- Inverse of the xor-shift by 13 on 32-bit values: over GF(2) the shift S
is nilpotent of index three, so the inverse of 1 + S is 1 + S + S^2. -/
theorem xorshift13_inv {h : Nat} (hlt : h < 2 ^ 32) :
    ((h ^^^ (h >>> 13)) ^^^ ((h ^^^ (h >>> 13)) >>> 13)) ^^^
      ((h ^^^ (h >>> 13)) >>> 26) = h := by
  have h1313 : (h >>> 13) >>> 13 = h >>> 26 := by
    rw [← Nat.shiftRight_add]
  have h1326 : (h >>> 13) >>> 26 = 0 := by
    rw [← Nat.shiftRight_add]
    exact shiftRight_ge_width 39 hlt (by norm_num)
  rw [xor_shiftRight_distrib, xor_shiftRight_distrib, h1313, h1326]
  simp [Nat.xor_assoc]

/-- Multiplying modulo 2^32 by a constant and then by its modular inverse is
the identity on 32-bit values. -/
theorem mul_mod_inv {c cinv : Nat} (hc : c * cinv % 2 ^ 32 = 1) {h : Nat}
    (hlt : h < 2 ^ 32) : h * c % 2 ^ 32 * cinv % 2 ^ 32 = h := by
  have e1 : h * c % 2 ^ 32 * cinv ≡ h * (c * cinv) [MOD 2 ^ 32] := by
    calc h * c % 2 ^ 32 * cinv
        ≡ h * c * cinv [MOD 2 ^ 32] :=
          Nat.ModEq.mul_right cinv (Nat.mod_modEq _ _)
      _ = h * (c * cinv) := by ring
  have e2 : h * (c * cinv) ≡ h * 1 [MOD 2 ^ 32] :=
    Nat.ModEq.mul_left h (by unfold Nat.ModEq; omega)
  have e3 := e1.trans e2
  unfold Nat.ModEq at e3
  rw [e3, Nat.mul_one, Nat.mod_eq_of_lt hlt]

/-- Proof helper: the inverse of the 32-bit MurmurHash3 finalizer, built from
the modular inverses 0xa5cb9243 and 0x7ed1b41d of the two odd multipliers
and the xor-shift inverses, applied in reverse order. -/
def murmurInv (h : Nat) : Nat :=
  let b1 := h ^^^ (h >>> 16)
  let b2 := b1 * 0x7ed1b41d % 2 ^ 32
  let b3 := (b2 ^^^ (b2 >>> 13)) ^^^ (b2 >>> 26)
  let b4 := b3 * 0xa5cb9243 % 2 ^ 32
  b4 ^^^ (b4 >>> 16)

/-- murmurInv undoes the finalizer on every 32-bit value. -/
theorem murmurInv_MurmurHash3 {h : Nat} (hlt : h < 2 ^ 32) :
    murmurInv (MurmurHash3 h) = h := by
  have hmod : h % 2 ^ 32 = h := Nat.mod_eq_of_lt hlt
  set a1 := h ^^^ (h >>> 16) with ha1
  have la1 : a1 < 2 ^ 32 :=
    Nat.xor_lt_two_pow hlt (lt_of_le_of_lt (shiftRight_le_self h 16) hlt)
  set a2 := a1 * 0x85ebca6b % 2 ^ 32 with ha2
  have la2 : a2 < 2 ^ 32 := Nat.mod_lt _ (by norm_num)
  set a3 := a2 ^^^ (a2 >>> 13) with ha3
  have la3 : a3 < 2 ^ 32 :=
    Nat.xor_lt_two_pow la2 (lt_of_le_of_lt (shiftRight_le_self a2 13) la2)
  set a4 := a3 * 0xc2b2ae35 % 2 ^ 32 with ha4
  have la4 : a4 < 2 ^ 32 := Nat.mod_lt _ (by norm_num)
  set a5 := a4 ^^^ (a4 >>> 16) with ha5
  have hM : MurmurHash3 h = a5 := by
    simp only [MurmurHash3, details.murmurHash3Compute4, hmod]
  have s1 : a5 ^^^ (a5 >>> 16) = a4 := by
    rw [ha5]
    exact xorshift16_invol la4
  have s2 : a4 * 0x7ed1b41d % 2 ^ 32 = a3 := by
    rw [ha4]
    exact mul_mod_inv (by norm_num) la3
  have s3 : (a3 ^^^ (a3 >>> 13)) ^^^ (a3 >>> 26) = a2 := by
    rw [ha3]
    exact xorshift13_inv la2
  have s4 : a2 * 0xa5cb9243 % 2 ^ 32 = a1 := by
    rw [ha2]
    exact mul_mod_inv (by norm_num) la1
  have s5 : a1 ^^^ (a1 >>> 16) = h := by
    rw [ha1]
    exact xorshift16_invol hlt
  rw [hM]
  simp only [murmurInv]
  rw [s1, s2, s3, s4, s5]

/-- Claim C6: MurmurHash3 at 32 bits computes exactly the five-step sequence
of the spec in unsigned 32-bit modular arithmetic, and it is deterministic:
equal inputs give equal outputs. -/
theorem MurmurHash3_matches_spec :
    (∀ h, h < 2 ^ 32 → MurmurHash3 h = murmur32SpecSteps h) ∧
    (∀ a b : Nat, a = b → MurmurHash3 a = MurmurHash3 b) := by
  constructor
  · intro h hlt
    simp only [MurmurHash3, details.murmurHash3Compute4, murmur32SpecSteps,
      Nat.mod_eq_of_lt hlt]
    rw [xorshift_mod 16 hlt, xorshift_mod 13 (Nat.mod_lt _ (by norm_num)),
      xorshift_mod 16 (Nat.mod_lt _ (by norm_num))]
  · intro a b hab
    rw [hab]

/-- Claim C6 witness: the agreement at the spec's regression input
0x12345678. -/
theorem MurmurHash3_matches_spec_witness :
    (0x12345678 : Nat) < 2 ^ 32 ∧
      MurmurHash3 0x12345678 = murmur32SpecSteps 0x12345678 :=
  ⟨by decide, MurmurHash3_matches_spec.1 0x12345678 (by decide)⟩

/-- Claim C10: the 32-bit MurmurHash3 finalizer is injective on 32-bit
words, because every step has an explicit inverse. -/
theorem MurmurHash3_injective : ∀ a b, a < 2 ^ 32 → b < 2 ^ 32 →
    MurmurHash3 a = MurmurHash3 b → a = b := by
  intro a b ha hb heq
  have h1 := murmurInv_MurmurHash3 ha
  have h2 := murmurInv_MurmurHash3 hb
  rw [← h1, ← h2, heq]

/-- Claim C10 witness: injectivity applied at a = b = 0. -/
theorem MurmurHash3_injective_witness :
    (0 : Nat) < 2 ^ 32 ∧ (0 : Nat) = 0 :=
  ⟨by decide, MurmurHash3_injective 0 0 (by decide) (by decide) rfl⟩

/-- tz of an odd number is zero. -/
theorem tz_odd {x : Nat} (hx : x % 2 = 1) : tz x = 0 := by
  rw [tz]
  simp [show ¬ x = 0 by omega, hx]

/-- tz of a positive even number counts the factor of two and recurses. -/
theorem tz_even {x : Nat} (hx0 : x ≠ 0) (hx : x % 2 = 0) :
    tz x = tz (x / 2) + 1 := by
  rw [tz]
  simp [hx0, show ¬ x % 2 = 1 by omega]

/-- Every positive number is two to its trailing-zero count times an odd
number. -/
theorem tz_decomp : ∀ x, 0 < x → ∃ m, m % 2 = 1 ∧ x = 2 ^ tz x * m := by
  intro x
  induction x using Nat.strong_induction_on with
  | _ x ih =>
    intro hx
    by_cases hodd : x % 2 = 1
    · exact ⟨x, hodd, by rw [tz_odd hodd]; ring⟩
    · have hx0 : x ≠ 0 := by omega
      have heven : x % 2 = 0 := by omega
      obtain ⟨m, hm1, hm2⟩ := ih (x / 2) (by omega) (by omega)
      refine ⟨m, hm1, ?_⟩
      rw [tz_even hx0 heven, pow_succ]
      calc x = 2 * (x / 2) := by omega
        _ = 2 * (2 ^ tz (x / 2) * m) := by conv_lhs => rw [hm2]
        _ = 2 ^ tz (x / 2) * 2 * m := by ring

/-- The trailing-zero count of a positive 32-bit value is below 32. -/
theorem tz_lt_32 {x : Nat} (hx0 : 0 < x) (hx : x < 2 ^ 32) : tz x < 32 := by
  obtain ⟨m, hmodd, hm⟩ := tz_decomp x hx0
  have hm1 : 1 ≤ m := by omega
  have hle : 2 ^ tz x ≤ x := by
    calc 2 ^ tz x = 2 ^ tz x * 1 := by ring
      _ ≤ 2 ^ tz x * m := Nat.mul_le_mul_left _ hm1
      _ = x := hm.symm
  by_contra hcon
  push_neg at hcon
  have hge : (2 : Nat) ^ 32 ≤ 2 ^ tz x := Nat.pow_le_pow_right (by norm_num) hcon
  omega

/-- Multiplication by a power of two distributes over AND. -/
theorem land_mul_pow (t a b : Nat) :
    (2 ^ t * a) &&& (2 ^ t * b) = 2 ^ t * (a &&& b) := by
  have hsh : ∀ c : Nat, 2 ^ t * c = c <<< t := fun c => by
    rw [Nat.shiftLeft_eq, Nat.mul_comm]
  rw [hsh, hsh, hsh]
  apply Nat.eq_of_testBit_eq
  intro i
  rw [Nat.testBit_and, Nat.testBit_shiftLeft, Nat.testBit_shiftLeft,
    Nat.testBit_shiftLeft, Nat.testBit_and]
  by_cases hit : t ≤ i
  · simp [hit]
  · simp [hit]

/-- An odd number below 2^k shares exactly bit 0 with its complement to 2^k:
above bit 0 the subtraction from the even power flips every bit. -/
theorem odd_land_two_pow_sub {m k : Nat} (hodd : m % 2 = 1) (hlt : m < 2 ^ k) :
    m &&& (2 ^ k - m) = 1 := by
  have hm1 : 1 ≤ m := by omega
  rcases Nat.eq_zero_or_pos k with hk0 | hk
  · exfalso
    rw [hk0] at hlt
    omega
  have hrw : 2 ^ k - m = 2 ^ k - ((m - 1) + 1) := by omega
  apply Nat.eq_of_testBit_eq
  intro i
  rw [Nat.testBit_and, hrw,
    Nat.testBit_two_pow_sub_succ (by omega : m - 1 < 2 ^ k)]
  cases i with
  | zero =>
    have h1 : Nat.testBit m 0 = true := by simp [hodd]
    have h2 : Nat.testBit (m - 1) 0 = false := by
      simp
      omega
    simp [h1, h2, hk]
  | succ i =>
    have hdiv : m / 2 = (m - 1) / 2 := by omega
    rw [Nat.testBit_add_one m, Nat.testBit_add_one (m - 1),
      Nat.testBit_add_one 1, hdiv]
    cases h : Nat.testBit ((m - 1) / 2) i <;> simp

/-- Isolating the lowest set bit: for a positive 32-bit x, AND of x with its
32-bit two's-complement negation is the power of two at the trailing-zero
position. -/
theorem land_neg_eq_pow_tz {x : Nat} (hx0 : 0 < x) (hx : x < 2 ^ 32) :
    x &&& ((2 ^ 32 - x) % 2 ^ 32) = 2 ^ tz x := by
  obtain ⟨m, hmodd, hm⟩ := tz_decomp x hx0
  have ht31 : tz x < 32 := tz_lt_32 hx0 hx
  have hpt : 0 < (2 : Nat) ^ tz x := Nat.two_pow_pos _
  have hm1 : 1 ≤ m := by omega
  have hWsplit : (2 : Nat) ^ tz x * 2 ^ (32 - tz x) = 2 ^ 32 := by
    rw [← Nat.pow_add]
    congr 1
    omega
  have hmlt : m < 2 ^ (32 - tz x) := by
    apply Nat.lt_of_mul_lt_mul_left (a := 2 ^ tz x)
    rw [hWsplit, ← hm]
    exact hx
  have hm'm : (2 ^ (32 - tz x) - m) + m = 2 ^ (32 - tz x) := by omega
  have hsum : 2 ^ tz x * (2 ^ (32 - tz x) - m) + 2 ^ tz x * m = 2 ^ 32 := by
    rw [← Nat.mul_add, hm'm, hWsplit]
  have hxeq : x = 2 ^ tz x * m := hm
  have hsub : 2 ^ 32 - x = 2 ^ tz x * (2 ^ (32 - tz x) - m) := by omega
  have hneg : (2 ^ 32 - x) % 2 ^ 32 = 2 ^ 32 - x :=
    Nat.mod_eq_of_lt (by omega)
  set t := tz x with ht
  rw [hneg, hsub]
  conv_lhs => rw [hxeq]
  rw [land_mul_pow, odd_land_two_pow_sub hmodd hmlt, Nat.mul_one]

/-- The SWAR population count evaluates correctly on every block of low
ones. -/
theorem popcnt32_two_pow_sub_one : ∀ t, t < 33 → popcnt32 (2 ^ t - 1) = t := by
  decide

/-- Claim C7: the portable ctz32 returns 32 at x = 0, and on every positive
32-bit x it returns the number of zero bits below the lowest set bit; the
concrete values ctz32(16) = 4, clz32(16) = 27 and popcnt32(16) = 1 hold. -/
theorem ctz32_spec :
    ctz32 0 = 32 ∧
    (∀ x, 0 < x → x < 2 ^ 32 → ctz32 x = tz x) ∧
    ctz32 16 = 4 ∧ clz32 16 = 27 ∧ popcnt32 16 = 1 := by
  refine ⟨by decide, ?_, by decide, by decide, by decide⟩
  intro x hx0 hx
  have ht31 : tz x < 32 := tz_lt_32 hx0 hx
  have hpt : 0 < (2 : Nat) ^ tz x := Nat.two_pow_pos _
  have hple : (2 : Nat) ^ tz x ≤ 2 ^ 31 :=
    Nat.pow_le_pow_right (by norm_num) (by omega)
  unfold ctz32
  rw [land_neg_eq_pow_tz hx0 hx]
  have hmod : (2 ^ tz x + (2 ^ 32 - 1)) % 2 ^ 32 = 2 ^ tz x - 1 := by
    have h2 : 2 ^ tz x + (2 ^ 32 - 1) = 2 ^ 32 + (2 ^ tz x - 1) := by omega
    rw [h2, Nat.add_mod_left, Nat.mod_eq_of_lt (by omega)]
  rw [hmod]
  exact popcnt32_two_pow_sub_one (tz x) (by omega)

/-- Claim C7 witness: the general trailing-zero law applied at x = 16. -/
theorem ctz32_spec_witness :
    0 < 16 ∧ (16 : Nat) < 2 ^ 32 ∧ ctz32 16 = tz 16 :=
  ⟨by decide, by decide, ctz32_spec.2.1 16 (by decide) (by decide)⟩

end xbits
